import Mathlib

/-!
# dcos-metrics schema generator

A shallow embedding of `collector/scripts/schema_generator.go`: the doc-line
pruning done in `main` before the schema is parsed, and the recursive walk
`writeNestedRecords` that writes one entry per record of the schema.
-/

namespace SchemaGenerator

/-! ## Pruning of doc rows (`main`, lines 100-109) -/

/-- One byte of a Go string or byte slice. -/
abbrev Byte := Fin 256

/-- The separator `"\n"` handed to `strings.Split`. -/
def newline : Byte := 10

/-- The five bytes of the Go literal `"\"doc\""`: a quote, `d`, `o`, `c`, a quote. -/
def docMarker : List Byte := [34, 100, 111, 99, 34]

/-- Go's `strings.Split(s, "\n")` as a first row and the rows after it: the
result of `Split` is never empty, an input without separator is its own only
row. -/
def splitRows : List Byte → List Byte × List (List Byte)
  | [] => ([], [])
  | b :: rest =>
    if b = newline then ([], (splitRows rest).1 :: (splitRows rest).2)
    else (b :: (splitRows rest).1, (splitRows rest).2)

/-- Go's `strings.Split(s, "\n")`: the pieces of `s` between the separators,
one more piece than there are separators. -/
def Split (s : List Byte) : List (List Byte) :=
  (splitRows s).1 :: (splitRows s).2

/-- Go's `strings.Contains(s, substr)`: `substr` starts at some position of `s`. -/
def Contains : List Byte → List Byte → Bool
  | [], substr => substr.isPrefixOf []
  | b :: rest, substr => substr.isPrefixOf (b :: rest) || Contains rest substr

/-- The body of the loop of `main` over the rows: a row containing the marker
is skipped (and logged), any other row is appended to `prunedData` followed by
`"\n"`. -/
def pruneStep (prunedData : List Byte) (row : List Byte) : List Byte :=
  if Contains row docMarker then prunedData
  else prunedData ++ (row ++ [newline])

/-- The pruning of `main`: `prunedData` starts empty and the loop runs over
`strings.Split(string(data), "\n")`. -/
def pruneDoc (data : List Byte) : List Byte :=
  (Split data).foldl pruneStep []

/-- The rows of a text that are followed by a newline: all pieces of the split
but the last one, which is what stands after the last newline. -/
def terminatedLines (s : List Byte) : List (List Byte) :=
  (Split s).dropLast

/-! ## The parsed schema (`jason` values) -/

/-- A parsed JSON value as the `jason` library holds it. Numbers are decoded
with `UseNumber`, so a number is kept as its literal text. -/
inductive Value where
  | null
  | bool (b : Bool)
  | number (literal : String)
  | string (s : String)
  | array (elems : List Value)
  | object (members : List (String × Value))

/-- A `jason.Object`: the members of a JSON object. The Go value is a map, with
one value per key; the members are read here with first-match lookup. -/
abbrev Object := List (String × Value)

/-- The map access `obj.Map()[key]` of `jason`: `none` is its `KeyNotFoundError`. -/
def lookupKey : Object → String → Option Value
  | [], _ => none
  | (k, v) :: rest, key => if k = key then some v else lookupKey rest key

/-- The conversion `(*Value).String()` of `jason`: `none` is `ErrNotString`. -/
def Value.asString : Value → Option String
  | .string s => some s
  | _ => none

/-- The conversion `(*Value).Object()` of `jason`: `none` is `ErrNotObject`. -/
def Value.asObject : Value → Option Object
  | .object members => some members
  | _ => none

/-- The conversion `(*Value).Array()` of `jason`: `none` is `ErrNotArray`. -/
def Value.asArray : Value → Option (List Value)
  | .array elems => some elems
  | _ => none

/-- The loop of `GetObjectArray` over the elements: the first element that is
not an object makes the whole call fail. -/
def objectsOf : List Value → Option (List Object)
  | [] => some []
  | v :: rest =>
    match v.asObject with
    | none => none
    | some o =>
      match objectsOf rest with
      | none => none
      | some os => some (o :: os)

/-- The call `obj.GetString(key)` of `jason`; `none` stands for `err != nil`. -/
def GetString (o : Object) (key : String) : Option String :=
  match lookupKey o key with
  | none => none
  | some child => child.asString

/-- The call `obj.GetObject(key)` of `jason`; `none` stands for `err != nil`. -/
def GetObject (o : Object) (key : String) : Option Object :=
  match lookupKey o key with
  | none => none
  | some child => child.asObject

/-- The call `obj.GetObjectArray(key)` of `jason`; `none` stands for
`err != nil`: the key is absent, its value is no array, or an element of the
array is no object. -/
def GetObjectArray (o : Object) (key : String) : Option (List Object) :=
  match lookupKey o key with
  | none => none
  | some child =>
    match child.asArray with
    | none => none
    | some array => objectsOf array

/-! ## The walk `writeNestedRecords` -/

/-- What `writeNestedRecords` writes to `outfile` for one record: the two
`Fprintf` calls of lines 32-37 print the name, the namespace and
`record.String()`, the serialisation of the record node, which is a function of
the node alone; the entry keeps the node itself. -/
structure ExtractedRecord where
  name : String
  namespace_ : String
  schema : Object

/-- The `log.Fatal` calls of `writeNestedRecords`, each with the values its
message prints. A failed write to `outfile` is not modelled. -/
inductive Fatal where
  /-- Line 24, `Record lacks a name`. -/
  | lacksName (record : Object)
  /-- Line 28, `Record lacks a namespace`. -/
  | lacksNamespace (record : Object)
  /-- Line 42, `Expected fields in record`. -/
  | expectedFields (name : String)
  /-- Line 52, `Expected name['fields'][i]['type']['type'] == str`. -/
  | expectedTypeStr (name : String) (i : Nat)
  /-- Line 55, `Expected name['fields'][i]['type']['type'] == 'array'`. -/
  | expectedTypeArray (name : String) (i : Nat)
  /-- Line 59, `Expected name['fields'][i]['type']['items'] == object`. -/
  | expectedItemsObject (name : String) (i : Nat)

/-- The error taxonomy of the specification, section 7, as far as the walk
can raise it; `Other` is a fatal error the taxonomy does not name. -/
inductive ErrorKind where
  | MissingIdentity
  | UnsupportedNestingShape
  | MalformedArrayItems
  | Other
  deriving DecidableEq

/-- The name the specification gives to each fatal error of the walk. -/
def Fatal.kind : Fatal → ErrorKind
  | .lacksName _ => .MissingIdentity
  | .lacksNamespace _ => .MissingIdentity
  | .expectedFields _ => .Other
  | .expectedTypeStr _ _ => .UnsupportedNestingShape
  | .expectedTypeArray _ _ => .UnsupportedNestingShape
  | .expectedItemsObject _ _ => .MalformedArrayItems

/-- The state in which a call of `writeNestedRecords` ends: the entries
written to `outfile` so far, and the fatal error that ended the process, if
any (`none`: the call returned). -/
structure Outcome where
  emitted : List ExtractedRecord
  fatal : Option Fatal

/-! Sizes, for the termination of the walk: every node the walk descends to
is a proper part of the node it comes from. -/

theorem sizeOf_lookupKey {m : Object} {key : String} {v : Value}
    (h : lookupKey m key = some v) : sizeOf v < sizeOf m := by
  induction m with
  | nil => simp [lookupKey] at h
  | cons kv rest ih =>
    obtain ⟨k, w⟩ := kv
    by_cases hk : k = key
    · simp only [lookupKey, hk, if_true, Option.some.injEq] at h
      subst h
      simp
      omega
    · simp only [lookupKey, hk, if_false] at h
      have := ih h
      simp
      omega

theorem sizeOf_asObject {v : Value} {o : Object} (h : v.asObject = some o) :
    sizeOf o < sizeOf v := by
  cases v <;> simp [Value.asObject] at h
  subst h
  simp

theorem sizeOf_asArray {v : Value} {xs : List Value} (h : v.asArray = some xs) :
    sizeOf xs < sizeOf v := by
  cases v <;> simp [Value.asArray] at h
  subst h
  simp

theorem sizeOf_objectsOf {vs : List Value} {os : List Object}
    (h : objectsOf vs = some os) : sizeOf os ≤ sizeOf vs := by
  induction vs generalizing os with
  | nil => simp [objectsOf] at h; subst h; simp
  | cons v rest ih =>
    simp only [objectsOf] at h
    split at h
    · simp at h
    · rename_i o ho
      split at h
      · simp at h
      · rename_i os2 hos
        simp only [Option.some.injEq] at h
        subst h
        have h1 := sizeOf_asObject ho
        have h2 := ih hos
        simp
        omega

theorem sizeOf_GetObject {m : Object} {key : String} {o : Object}
    (h : GetObject m key = some o) : sizeOf o < sizeOf m := by
  simp only [GetObject] at h
  split at h
  · simp at h
  · rename_i child hc
    exact Nat.lt_trans (sizeOf_asObject h) (sizeOf_lookupKey hc)

theorem sizeOf_GetObjectArray {m : Object} {key : String} {fs : List Object}
    (h : GetObjectArray m key = some fs) : sizeOf fs < sizeOf m := by
  simp only [GetObjectArray] at h
  split at h
  · simp at h
  · rename_i child hc
    split at h
    · simp at h
    · rename_i arr ha
      exact Nat.lt_of_le_of_lt (sizeOf_objectsOf h)
        (Nat.lt_trans (sizeOf_asArray ha) (sizeOf_lookupKey hc))

set_option linter.unusedVariables false in
mutual
/-- The function `writeNestedRecords(outfile, record)`, lines 20-63, up to the
loop: `outfile` is the list of entries written so far. -/
def writeNestedRecords (outfile : List ExtractedRecord) (record : Object) : Outcome :=
  match GetString record "name" with
  | none => ⟨outfile, some (.lacksName record)⟩
  | some name =>
    if name.length = 0 then ⟨outfile, some (.lacksName record)⟩
    else
      match GetString record "namespace" with
      | none => ⟨outfile, some (.lacksNamespace record)⟩
      | some namespace_ =>
        if namespace_.length = 0 then ⟨outfile, some (.lacksNamespace record)⟩
        else
          match hFields : GetObjectArray record "fields" with
          | none =>
            ⟨outfile ++ [⟨name, namespace_, record⟩], some (.expectedFields name)⟩
          | some recordFields =>
            scanFields name 0 (outfile ++ [⟨name, namespace_, record⟩]) recordFields
termination_by sizeOf record
decreasing_by exact sizeOf_GetObjectArray hFields

/-- The loop `for i, field := range recordFields` of lines 44-62, from index
`i` on, over the fields not yet scanned. -/
def scanFields (name : String) (i : Nat) (outfile : List ExtractedRecord)
    (fields : List Object) : Outcome :=
  match fields with
  | [] => ⟨outfile, none⟩
  | field :: rest =>
    match hType : GetObject field "type" with
    | none => scanFields name (i + 1) outfile rest
    | some fieldType =>
      match GetString fieldType "type" with
      | none => ⟨outfile, some (.expectedTypeStr name i)⟩
      | some fieldTypeType =>
        if fieldTypeType ≠ "array" then ⟨outfile, some (.expectedTypeArray name i)⟩
        else
          match hItems : GetObject fieldType "items" with
          | none => ⟨outfile, some (.expectedItemsObject name i)⟩
          | some fieldTypeItems =>
            match writeNestedRecords outfile fieldTypeItems with
            | ⟨written, some f⟩ => ⟨written, some f⟩
            | ⟨written, none⟩ => scanFields name (i + 1) written rest
termination_by sizeOf fields
decreasing_by
  · simp
  · have a := sizeOf_GetObject hType
    have b := sizeOf_GetObject hItems
    simp
    omega
  · simp
end

/-! ## The walk as the specification words it (section 4.3) -/

/-- The `items` record of a field whose `type` is an object with type
`"array"` (steps 3a to 3c of the algorithm). -/
def arrayItems (field : Object) : Option Object :=
  match GetObject field "type" with
  | none => none
  | some fieldType =>
    if GetString fieldType "type" = some "array" then GetObject fieldType "items"
    else none

/-- The records nested in a record: the `items` records of its array-typed
fields, in field declaration order. -/
def nestedRecords (record : Object) : List Object :=
  match GetObjectArray record "fields" with
  | none => []
  | some recordFields => recordFields.filterMap arrayItems

/-- The entry of a record node: its name, its namespace and the node. -/
def entryOf (record : Object) : ExtractedRecord :=
  ⟨(GetString record "name").getD "", (GetString record "namespace").getD "", record⟩

theorem sizeOf_arrayItems {field items : Object} (h : arrayItems field = some items) :
    sizeOf items < sizeOf field := by
  simp only [arrayItems] at h
  split at h
  · simp at h
  · rename_i t ht
    split at h
    · exact Nat.lt_trans (sizeOf_GetObject h) (sizeOf_GetObject ht)
    · simp at h

theorem sizeOf_nestedRecords {record r : Object} (h : r ∈ nestedRecords record) :
    sizeOf r < sizeOf record := by
  simp only [nestedRecords] at h
  split at h
  · simp at h
  · rename_i fs hfs
    rw [List.mem_filterMap] at h
    obtain ⟨f, hf, hr⟩ := h
    have h1 := sizeOf_arrayItems hr
    have h2 := List.sizeOf_lt_of_mem hf
    have h3 := sizeOf_GetObjectArray hfs
    omega

/-- The pre-order depth-first walk of the specification: the record itself,
then the walks of its nested records, one after the other. -/
def preorder (record : Object) : List ExtractedRecord :=
  entryOf record ::
    ((nestedRecords record).attach.map (fun r => preorder r.1)).flatten
termination_by sizeOf record
decreasing_by exact sizeOf_nestedRecords r.2

/-- One turn of the loop of `writeNestedRecords` on `field`, the turn with
index `i`: the state after it, the loop going on when `fatal` is `none`. -/
def fieldStep (name : String) (i : Nat) (outfile : List ExtractedRecord)
    (field : Object) : Outcome :=
  match GetObject field "type" with
  | none => ⟨outfile, none⟩
  | some fieldType =>
    match GetString fieldType "type" with
    | none => ⟨outfile, some (.expectedTypeStr name i)⟩
    | some fieldTypeType =>
      if fieldTypeType ≠ "array" then ⟨outfile, some (.expectedTypeArray name i)⟩
      else
        match GetObject fieldType "items" with
        | none => ⟨outfile, some (.expectedItemsObject name i)⟩
        | some fieldTypeItems => writeNestedRecords outfile fieldTypeItems

/-- The nodes the walk visits: `Reaches out root written node` says that the
walk started on `root` with `out` written arrives at the record `node` with
`written` written, every turn of a loop before it having passed. -/
inductive Reaches : List ExtractedRecord → Object → List ExtractedRecord → Object → Prop
  | root (out : List ExtractedRecord) (record : Object) : Reaches out record out record
  | nested (out : List ExtractedRecord) (record : Object) (name ns : String)
      (pre : List Object) (field : Object) (post : List Object) (items : Object)
      (before written : List ExtractedRecord) (node : Object)
      (hname : GetString record "name" = some name) (hlen : name.length ≠ 0)
      (hns : GetString record "namespace" = some ns) (hnslen : ns.length ≠ 0)
      (hfields : GetObjectArray record "fields" = some (pre ++ field :: post))
      (hpre : scanFields name 0 (out ++ [⟨name, ns, record⟩]) pre = ⟨before, none⟩)
      (hitems : arrayItems field = some items)
      (hrest : Reaches before items written node) :
      Reaches out record written node

/-- An outcome with `out` written before it. -/
def Outcome.after (out : List ExtractedRecord) (o : Outcome) : Outcome :=
  ⟨out ++ o.emitted, o.fatal⟩

/-! ## Example schemas -/

/-- The record `{"name":"Inner","namespace":"ns","fields":[]}`. -/
def inner : Object :=
  [("name", .string "Inner"), ("namespace", .string "ns"), ("fields", .array [])]

/-- A field named `fieldName` whose type is an array of `items`. -/
def arrayField (fieldName : String) (items : Value) : Value :=
  .object [("name", .string fieldName),
    ("type", .object [("type", .string "array"), ("items", items)])]

/-- The record `Outer` with one array field of `Inner`. -/
def outerOne : Object :=
  [("name", .string "Outer"), ("namespace", .string "ns"),
    ("fields", .array [arrayField "inner" (.object inner)])]

/-- The record `Outer` with two array fields of the same `Inner`. -/
def outerTwo : Object :=
  [("name", .string "Outer"), ("namespace", .string "ns"),
    ("fields", .array [arrayField "first" (.object inner), arrayField "second" (.object inner)])]

/-- A record with two fields of plain string types. -/
def flatRecord : Object :=
  [("name", .string "Flat"), ("namespace", .string "ns"),
    ("fields", .array [
      .object [("name", .string "a"), ("type", .string "string")],
      .object [("name", .string "b"), ("type", .string "long")]])]

/-- The record `Inner` without its `namespace`. -/
def innerNoNamespace : Object :=
  [("name", .string "Inner"), ("fields", .array [])]

/-- The record `Outer` with one array field of the `Inner` without namespace. -/
def outerNoNamespace : Object :=
  [("name", .string "Outer"), ("namespace", .string "ns"),
    ("fields", .array [arrayField "inner" (.object innerNoNamespace)])]

/-- The record `Inner` nested the way Avro writes a record type. -/
def innerRecordType : Value :=
  .object [("type", .string "record"), ("name", .string "Inner"), ("namespace", .string "ns"),
    ("fields", .array [])]

/-- The record `Outer` with a field whose type is the union of `null` and the
record `Inner`. -/
def outerUnion : Object :=
  [("name", .string "Outer"), ("namespace", .string "ns"),
    ("fields", .array [
      .object [("name", .string "inner"),
        ("type", .array [.string "null", innerRecordType])]])]

/-- The record `Outer` with a field whose type is the record `Inner` itself. -/
def outerDirect : Object :=
  [("name", .string "Outer"), ("namespace", .string "ns"),
    ("fields", .array [.object [("name", .string "inner"), ("type", innerRecordType)]])]

/-- The record `Outer` with a field whose type is a map that carries `items`. -/
def outerMap : Object :=
  [("name", .string "Outer"), ("namespace", .string "ns"),
    ("fields", .array [
      .object [("name", .string "inner"),
        ("type", .object [("type", .string "map"), ("items", .object inner)])]])]

/-- The record `Outer` with an array field of strings. -/
def outerStrings : Object :=
  [("name", .string "Outer"), ("namespace", .string "ns"),
    ("fields", .array [arrayField "tags" (.string "string")])]

/-- The record `Outer` without `fields`. -/
def outerNoFields : Object :=
  [("name", .string "Outer"), ("namespace", .string "ns")]

/-! ### Lemmas on the pruning -/

theorem foldl_pruneStep (rows : List (List Byte)) (acc : List Byte) :
    rows.foldl pruneStep acc
      = acc ++ ((rows.filter (fun row => !Contains row docMarker)).map
          (fun row => row ++ [newline])).flatten := by
  induction rows generalizing acc with
  | nil => simp
  | cons row rows ih =>
    rw [List.foldl_cons, ih]
    by_cases h : Contains row docMarker = true
    · simp [pruneStep, h]
    · simp [pruneStep, h]

theorem pruneDoc_eq (data : List Byte) :
    pruneDoc data
      = (((Split data).filter (fun row => !Contains row docMarker)).map
          (fun row => row ++ [newline])).flatten := by
  simp [pruneDoc, foldl_pruneStep]

theorem Split_cons_newline (rest : List Byte) :
    Split (newline :: rest) = [] :: Split rest := by
  simp [Split, splitRows]

theorem Split_append_newline (row rest : List Byte) (h : newline ∉ row) :
    Split (row ++ newline :: rest) = row :: Split rest := by
  induction row with
  | nil => simpa using Split_cons_newline rest
  | cons b row ih =>
    have hb : b ≠ newline := fun e => h (by simp [e])
    have hrow : newline ∉ row := fun m => h (List.mem_cons_of_mem _ m)
    have ih2 := ih hrow
    simp only [Split, List.cons.injEq] at ih2
    simp [Split, splitRows, hb, ih2.1, ih2.2]

theorem newline_not_mem_first (s : List Byte) : newline ∉ (splitRows s).1 := by
  induction s with
  | nil => simp [splitRows]
  | cons b rest ih =>
    by_cases hb : b = newline
    · simp [splitRows, hb]
    · simp only [splitRows, hb, if_false, List.mem_cons, not_or]
      exact ⟨fun e => hb e.symm, ih⟩

theorem newline_not_mem_rest (s : List Byte) :
    ∀ row ∈ (splitRows s).2, newline ∉ row := by
  induction s with
  | nil => simp [splitRows]
  | cons b rest ih =>
    by_cases hb : b = newline
    · intro row hrow
      simp only [splitRows, hb, if_true, List.mem_cons] at hrow
      rcases hrow with e | m
      · rw [e]; exact newline_not_mem_first rest
      · exact ih row m
    · simpa [splitRows, hb] using ih

theorem newline_not_mem_of_mem_Split (s row : List Byte) (h : row ∈ Split s) :
    newline ∉ row := by
  simp only [Split, List.mem_cons] at h
  rcases h with e | m
  · rw [e]; exact newline_not_mem_first s
  · exact newline_not_mem_rest s row m

/-- Splitting rows that were each written with a newline gives the rows back,
with one empty piece after the last newline. -/
theorem Split_join_rows (rows : List (List Byte)) (h : ∀ row ∈ rows, newline ∉ row) :
    Split ((rows.map (fun row => row ++ [newline])).flatten) = rows ++ [[]] := by
  induction rows with
  | nil => simp [Split, splitRows]
  | cons row rows ih =>
    have h1 : newline ∉ row := h row (List.mem_cons_self _ _)
    have h2 : ∀ r ∈ rows, newline ∉ r := fun r m => h r (List.mem_cons_of_mem _ m)
    simp only [List.map_cons, List.flatten_cons, List.append_assoc, List.singleton_append,
      List.cons_append]
    rw [Split_append_newline row _ h1, List.nil_append, ih h2]

/-- Writing every row of a split with a newline gives the text back with one
newline more. -/
theorem join_Split (s : List Byte) :
    ((Split s).map (fun row => row ++ [newline])).flatten = s ++ [newline] := by
  induction s with
  | nil => simp [Split, splitRows]
  | cons b rest ih =>
    by_cases hb : b = newline
    · simp only [Split, List.map_cons, List.flatten_cons] at ih
      simp [Split, splitRows, hb, ih]
    · simp only [Split, List.map_cons, List.flatten_cons] at ih
      simp [Split, splitRows, hb, ih]

theorem isPrefixOf_append_newline (p r rest : List Byte) (h : newline ∉ p) :
    p.isPrefixOf (r ++ newline :: rest) = p.isPrefixOf r := by
  induction p generalizing r with
  | nil => simp
  | cons a p ih =>
    have ha : a ≠ newline := fun e => h (by simp [e])
    have hp : newline ∉ p := fun m => h (List.mem_cons_of_mem _ m)
    cases r with
    | nil => simp [List.isPrefixOf, ha]
    | cons c r => simp [List.isPrefixOf, ih r hp]

/-- A marker without newline occurs in a text only inside one of its rows. -/
theorem Contains_append_newline (p row rest : List Byte) (h : newline ∉ p) :
    Contains (row ++ newline :: rest) p = (Contains row p || Contains rest p) := by
  induction row with
  | nil =>
    have e := isPrefixOf_append_newline p [] rest h
    simp only [List.nil_append] at e
    simp [Contains, e]
  | cons b row ih =>
    have e := isPrefixOf_append_newline p (b :: row) rest h
    simp only [List.cons_append] at e
    simp [Contains, e, ih, Bool.or_assoc]

theorem Contains_join_rows (p : List Byte) (rows : List (List Byte)) (h : newline ∉ p)
    (hrows : ∀ row ∈ rows, Contains row p = false) (hnil : Contains [] p = false) :
    Contains ((rows.map (fun row => row ++ [newline])).flatten) p = false := by
  induction rows with
  | nil => simpa using hnil
  | cons row rows ih =>
    have h1 := hrows row (List.mem_cons_self _ _)
    have h2 := ih (fun r m => hrows r (List.mem_cons_of_mem _ m))
    simp only [List.map_cons, List.flatten_cons, List.append_assoc, List.singleton_append,
      List.nil_append]
    rw [Contains_append_newline p row _ h, h1, h2]
    rfl

theorem newline_not_mem_docMarker : newline ∉ docMarker := by decide

/-- The rows that the pruning keeps. -/
theorem keptRows_spec (data : List Byte) :
    ∀ row ∈ (Split data).filter (fun row => !Contains row docMarker),
      newline ∉ row ∧ Contains row docMarker = false := by
  intro row hrow
  rw [List.mem_filter] at hrow
  exact ⟨newline_not_mem_of_mem_Split data row hrow.1, by simpa using hrow.2⟩

theorem Split_pruneDoc (data : List Byte) :
    Split (pruneDoc data)
      = (Split data).filter (fun row => !Contains row docMarker) ++ [[]] := by
  rw [pruneDoc_eq]
  exact Split_join_rows _ (fun row hrow => (keptRows_spec data row hrow).1)

/-! ### Unfolding the walk -/

theorem scanFields_nil (name : String) (i : Nat) (out : List ExtractedRecord) :
    scanFields name i out [] = ⟨out, none⟩ := by
  rw [scanFields]

theorem scanFields_cons (name : String) (i : Nat) (out : List ExtractedRecord)
    (field : Object) (rest : List Object) :
    scanFields name i out (field :: rest) =
      match fieldStep name i out field with
      | ⟨written, some f⟩ => ⟨written, some f⟩
      | ⟨written, none⟩ => scanFields name (i + 1) written rest := by
  rw [scanFields]
  unfold fieldStep
  split
  · rename_i h
    rw [h]
  · rename_i t h
    rw [h]
    dsimp only
    split
    · rfl
    · rename_i s hs
      by_cases hne : s ≠ "array"
      · rw [if_pos hne, if_pos hne]
      · rw [if_neg hne, if_neg hne]
        split
        · rename_i hi
          rw [hi]
        · rename_i items hi
          rw [hi]

theorem writeNestedRecords_lacksName (out : List ExtractedRecord) (record : Object)
    (h : ∀ name, GetString record "name" = some name → name.length = 0) :
    writeNestedRecords out record = ⟨out, some (.lacksName record)⟩ := by
  rw [writeNestedRecords]
  split
  · rfl
  · rename_i name hname
    rw [if_pos (h name hname)]

theorem writeNestedRecords_lacksNamespace (out : List ExtractedRecord) (record : Object)
    (name : String) (hname : GetString record "name" = some name) (hlen : name.length ≠ 0)
    (h : ∀ ns, GetString record "namespace" = some ns → ns.length = 0) :
    writeNestedRecords out record = ⟨out, some (.lacksNamespace record)⟩ := by
  rw [writeNestedRecords, hname]
  dsimp only
  rw [if_neg hlen]
  split
  · rfl
  · rename_i ns hns
    rw [if_pos (h ns hns)]

theorem writeNestedRecords_noFields (out : List ExtractedRecord) (record : Object)
    (name ns : String) (hname : GetString record "name" = some name) (hlen : name.length ≠ 0)
    (hns : GetString record "namespace" = some ns) (hnslen : ns.length ≠ 0)
    (h : GetObjectArray record "fields" = none) :
    writeNestedRecords out record
      = ⟨out ++ [⟨name, ns, record⟩], some (.expectedFields name)⟩ := by
  rw [writeNestedRecords, hname]
  dsimp only
  rw [if_neg hlen, hns]
  dsimp only
  rw [if_neg hnslen]
  split
  · rfl
  · rename_i fs hfs
    rw [h] at hfs
    exact Option.noConfusion hfs

theorem writeNestedRecords_fields (out : List ExtractedRecord) (record : Object)
    (name ns : String) (fs : List Object)
    (hname : GetString record "name" = some name) (hlen : name.length ≠ 0)
    (hns : GetString record "namespace" = some ns) (hnslen : ns.length ≠ 0)
    (h : GetObjectArray record "fields" = some fs) :
    writeNestedRecords out record = scanFields name 0 (out ++ [⟨name, ns, record⟩]) fs := by
  rw [writeNestedRecords, hname]
  dsimp only
  rw [if_neg hlen, hns]
  dsimp only
  rw [if_neg hnslen]
  split
  · rename_i hfs
    rw [h] at hfs
    exact Option.noConfusion hfs
  · rename_i fs2 hfs
    rw [h] at hfs
    cases hfs
    rfl

theorem preorder_eq (record : Object) :
    preorder record
      = entryOf record :: ((nestedRecords record).map preorder).flatten := by
  rw [preorder]
  congr 2
  rw [List.attach_map_coe]

/-! ### The loop over a list of fields -/

theorem scanFields_append (name : String) (pre rest : List Object) :
    ∀ (i : Nat) (out : List ExtractedRecord),
      scanFields name i out (pre ++ rest) =
        match scanFields name i out pre with
        | ⟨written, some f⟩ => ⟨written, some f⟩
        | ⟨written, none⟩ => scanFields name (i + pre.length) written rest := by
  induction pre with
  | nil =>
    intro i out
    rw [scanFields_nil]
    simp
  | cons field pre ih =>
    intro i out
    rw [List.cons_append, scanFields_cons, scanFields_cons]
    rcases hstep : fieldStep name i out field with ⟨written, _ | f⟩
    · dsimp only
      rw [ih (i + 1) written]
      have e : i + 1 + pre.length = i + (field :: pre).length := by
        simp only [List.length_cons]; omega
      rw [e]
    · rfl

theorem scanFields_append_of_ok (name : String) (pre rest : List Object) (i : Nat)
    (out written : List ExtractedRecord)
    (h : scanFields name i out pre = ⟨written, none⟩) :
    scanFields name i out (pre ++ rest) = scanFields name (i + pre.length) written rest := by
  rw [scanFields_append, h]

theorem scanFields_cons_of_fatal (name : String) (i : Nat) (out written : List ExtractedRecord)
    (field : Object) (rest : List Object) (f : Fatal)
    (h : fieldStep name i out field = ⟨written, some f⟩) :
    scanFields name i out (field :: rest) = ⟨written, some f⟩ := by
  rw [scanFields_cons, h]

theorem scanFields_cons_of_ok (name : String) (i : Nat) (out written : List ExtractedRecord)
    (field : Object) (rest : List Object)
    (h : fieldStep name i out field = ⟨written, none⟩) :
    scanFields name i out (field :: rest) = scanFields name (i + 1) written rest := by
  rw [scanFields_cons, h]

/-- A turn of the loop that does not end the process either skipped the field
or walked the `items` record of an array-typed field. -/
theorem fieldStep_of_ok (name : String) (i : Nat) (out : List ExtractedRecord)
    (field : Object) (h : (fieldStep name i out field).fatal = none) :
    (arrayItems field = none ∧ fieldStep name i out field = ⟨out, none⟩) ∨
    (∃ items, arrayItems field = some items ∧
      fieldStep name i out field = writeNestedRecords out items) := by
  unfold fieldStep at h ⊢
  unfold arrayItems
  rcases ht : GetObject field "type" with _ | t
  · exact Or.inl ⟨rfl, rfl⟩
  · rw [ht] at h
    dsimp only at h ⊢
    rcases hs : GetString t "type" with _ | s
    · rw [hs] at h
      simp at h
    · rw [hs] at h
      dsimp only at h ⊢
      by_cases hne : s ≠ "array"
      · rw [if_pos hne] at h
        simp at h
      · have hs2 : s = "array" := not_not.mp hne
        subst hs2
        rw [if_neg hne] at h ⊢
        rw [if_pos rfl]
        rcases hi : GetObject t "items" with _ | items
        · rw [hi] at h
          simp at h
        · exact Or.inr ⟨items, rfl, rfl⟩

/-! ### A walk that returns wrote the pre-order sequence -/

theorem scanFields_emitted_aux (n : Nat)
    (ih : ∀ record : Object, sizeOf record < n → ∀ out : List ExtractedRecord,
      (writeNestedRecords out record).fatal = none →
      (writeNestedRecords out record).emitted = out ++ preorder record)
    (name : String) (fs : List Object) :
    sizeOf fs ≤ n → ∀ (i : Nat) (out : List ExtractedRecord),
      (scanFields name i out fs).fatal = none →
      (scanFields name i out fs).emitted
        = out ++ ((fs.filterMap arrayItems).map preorder).flatten := by
  induction fs with
  | nil =>
    intro _ i out _
    rw [scanFields_nil]
    simp
  | cons field rest ihl =>
    intro hsize i out h
    have hrest : sizeOf rest ≤ n := by
      have : sizeOf (field :: rest) = 1 + sizeOf field + sizeOf rest := by simp
      omega
    have hfield : sizeOf field < n := by
      have : sizeOf (field :: rest) = 1 + sizeOf field + sizeOf rest := by simp
      omega
    rw [scanFields_cons] at h ⊢
    rcases hstep : fieldStep name i out field with ⟨written, _ | f⟩
    · rw [hstep] at h
      dsimp only at h ⊢
      have hok : (fieldStep name i out field).fatal = none := by rw [hstep]
      rcases fieldStep_of_ok name i out field hok with ⟨hnone, hout⟩ | ⟨items, hitems, hwalk⟩
      · rw [hstep] at hout
        cases hout
        rw [ihl hrest (i + 1) out h, List.filterMap_cons, hnone]
      · have hlt : sizeOf items < n := Nat.lt_trans (sizeOf_arrayItems hitems) hfield
        have hrec := ih items hlt out (by rw [← hwalk]; exact hok)
        rw [← hwalk, hstep] at hrec
        dsimp only at hrec
        rw [ihl hrest (i + 1) written h, List.filterMap_cons, hitems, hrec]
        simp
    · rw [hstep] at h
      simp at h

theorem writeNestedRecords_emitted_aux (n : Nat) :
    ∀ record : Object, sizeOf record < n → ∀ out : List ExtractedRecord,
      (writeNestedRecords out record).fatal = none →
      (writeNestedRecords out record).emitted = out ++ preorder record := by
  induction n with
  | zero => intro record h; omega
  | succ n ih =>
    intro record hsize out h
    rcases hn : GetString record "name" with _ | name
    · rw [writeNestedRecords_lacksName out record
        (fun x hx => by rw [hn] at hx; cases hx)] at h
      simp at h
    by_cases hlen : name.length = 0
    · rw [writeNestedRecords_lacksName out record
        (fun x hx => by rw [hn] at hx; cases hx; exact hlen)] at h
      simp at h
    rcases hns : GetString record "namespace" with _ | ns
    · rw [writeNestedRecords_lacksNamespace out record name hn hlen
        (fun x hx => by rw [hns] at hx; cases hx)] at h
      simp at h
    by_cases hnslen : ns.length = 0
    · rw [writeNestedRecords_lacksNamespace out record name hn hlen
        (fun x hx => by rw [hns] at hx; cases hx; exact hnslen)] at h
      simp at h
    rcases hf : GetObjectArray record "fields" with _ | fs
    · rw [writeNestedRecords_noFields out record name ns hn hlen hns hnslen hf] at h
      simp at h
    · rw [writeNestedRecords_fields out record name ns fs hn hlen hns hnslen hf] at h ⊢
      have hfs : sizeOf fs ≤ n := by
        have := sizeOf_GetObjectArray hf
        omega
      rw [scanFields_emitted_aux n ih name fs hfs 0 _ h, preorder_eq]
      simp [nestedRecords, hf, entryOf, hn, hns]

/-- A walk that returns has appended the pre-order sequence of the record. -/
theorem writeNestedRecords_emitted (out : List ExtractedRecord) (record : Object)
    (h : (writeNestedRecords out record).fatal = none) :
    (writeNestedRecords out record).emitted = out ++ preorder record :=
  writeNestedRecords_emitted_aux (sizeOf record + 1) record (Nat.lt_succ_self _) out h

/-- A loop that runs to its end has appended the pre-order sequences of the
records nested in the fields. -/
theorem scanFields_emitted (name : String) (fs : List Object) (i : Nat)
    (out : List ExtractedRecord) (h : (scanFields name i out fs).fatal = none) :
    (scanFields name i out fs).emitted
      = out ++ ((fs.filterMap arrayItems).map preorder).flatten :=
  scanFields_emitted_aux (sizeOf fs)
    (fun record _ out h => writeNestedRecords_emitted out record h) name fs (Nat.le_refl _) i out h

/-! ### What a walk does is independent of what was written before -/

theorem fieldStep_frame_aux (n : Nat)
    (ih : ∀ record : Object, sizeOf record < n → ∀ out : List ExtractedRecord,
      writeNestedRecords out record = (writeNestedRecords [] record).after out)
    (name : String) (i : Nat) (out : List ExtractedRecord) (field : Object)
    (hsize : sizeOf field < n) :
    fieldStep name i out field = (fieldStep name i [] field).after out := by
  unfold fieldStep
  rcases ht : GetObject field "type" with _ | t
  · simp [Outcome.after]
  · dsimp only
    rcases hs : GetString t "type" with _ | s
    · simp [Outcome.after]
    · dsimp only
      by_cases hne : s ≠ "array"
      · rw [if_pos hne, if_pos hne]
        simp [Outcome.after]
      · rw [if_neg hne, if_neg hne]
        rcases hi : GetObject t "items" with _ | items
        · simp [Outcome.after]
        · dsimp only
          have h1 := sizeOf_GetObject ht
          have h2 := sizeOf_GetObject hi
          exact ih items (by omega) out

theorem scanFields_frame_aux (n : Nat)
    (ih : ∀ record : Object, sizeOf record < n → ∀ out : List ExtractedRecord,
      writeNestedRecords out record = (writeNestedRecords [] record).after out)
    (name : String) (fs : List Object) :
    sizeOf fs ≤ n → ∀ (i : Nat) (out : List ExtractedRecord),
      scanFields name i out fs = (scanFields name i [] fs).after out := by
  induction fs with
  | nil =>
    intro _ i out
    rw [scanFields_nil, scanFields_nil]
    simp [Outcome.after]
  | cons field rest ihl =>
    intro hsize i out
    have hsz : sizeOf (field :: rest) = 1 + sizeOf field + sizeOf rest := by simp
    have hrest : sizeOf rest ≤ n := by omega
    have hfield : sizeOf field < n := by omega
    rw [scanFields_cons, scanFields_cons, fieldStep_frame_aux n ih name i out field hfield]
    rcases hstep : fieldStep name i [] field with ⟨written, _ | f⟩
    · dsimp only [Outcome.after]
      rw [ihl hrest (i + 1) (out ++ written), ihl hrest (i + 1) written]
      simp [Outcome.after]
    · rfl

theorem writeNestedRecords_frame_aux (n : Nat) :
    ∀ record : Object, sizeOf record < n → ∀ out : List ExtractedRecord,
      writeNestedRecords out record = (writeNestedRecords [] record).after out := by
  induction n with
  | zero => intro record h; omega
  | succ n ih =>
    intro record hsize out
    rcases hn : GetString record "name" with _ | name
    · have hx : ∀ x, GetString record "name" = some x → x.length = 0 :=
        fun x hx => by rw [hn] at hx; cases hx
      rw [writeNestedRecords_lacksName out record hx, writeNestedRecords_lacksName [] record hx]
      simp [Outcome.after]
    by_cases hlen : name.length = 0
    · have hx : ∀ x, GetString record "name" = some x → x.length = 0 :=
        fun x hx => by rw [hn] at hx; cases hx; exact hlen
      rw [writeNestedRecords_lacksName out record hx, writeNestedRecords_lacksName [] record hx]
      simp [Outcome.after]
    rcases hns : GetString record "namespace" with _ | ns
    · have hx : ∀ x, GetString record "namespace" = some x → x.length = 0 :=
        fun x hx => by rw [hns] at hx; cases hx
      rw [writeNestedRecords_lacksNamespace out record name hn hlen hx,
        writeNestedRecords_lacksNamespace [] record name hn hlen hx]
      simp [Outcome.after]
    by_cases hnslen : ns.length = 0
    · have hx : ∀ x, GetString record "namespace" = some x → x.length = 0 :=
        fun x hx => by rw [hns] at hx; cases hx; exact hnslen
      rw [writeNestedRecords_lacksNamespace out record name hn hlen hx,
        writeNestedRecords_lacksNamespace [] record name hn hlen hx]
      simp [Outcome.after]
    rcases hf : GetObjectArray record "fields" with _ | fs
    · rw [writeNestedRecords_noFields out record name ns hn hlen hns hnslen hf,
        writeNestedRecords_noFields [] record name ns hn hlen hns hnslen hf]
      simp [Outcome.after]
    · rw [writeNestedRecords_fields out record name ns fs hn hlen hns hnslen hf,
        writeNestedRecords_fields [] record name ns fs hn hlen hns hnslen hf]
      have hfs : sizeOf fs ≤ n := by
        have := sizeOf_GetObjectArray hf
        omega
      rw [scanFields_frame_aux n ih name fs hfs 0 (out ++ _),
        scanFields_frame_aux n ih name fs hfs 0 ([] ++ _)]
      simp [Outcome.after]

/-- The walk of a record appends to what was written: its entries and its end
are those of the walk started on an empty output. -/
theorem writeNestedRecords_frame (out : List ExtractedRecord) (record : Object) :
    writeNestedRecords out record = (writeNestedRecords [] record).after out :=
  writeNestedRecords_frame_aux (sizeOf record + 1) record (Nat.lt_succ_self _) out

theorem scanFields_frame (name : String) (fs : List Object) (i : Nat)
    (out : List ExtractedRecord) :
    scanFields name i out fs = (scanFields name i [] fs).after out :=
  scanFields_frame_aux (sizeOf fs)
    (fun record _ out => writeNestedRecords_frame out record) name fs (Nat.le_refl _) i out

/-! ### Single turns of the loop -/

theorem fieldStep_of_arrayItems (name : String) (i : Nat) (out : List ExtractedRecord)
    (field items : Object) (h : arrayItems field = some items) :
    fieldStep name i out field = writeNestedRecords out items := by
  unfold arrayItems at h
  unfold fieldStep
  rcases ht : GetObject field "type" with _ | t
  · rw [ht] at h
    cases h
  · rw [ht] at h
    dsimp only at h ⊢
    by_cases hs : GetString t "type" = some "array"
    · rw [if_pos hs] at h
      rw [hs]
      dsimp only
      rw [if_neg (not_not.mpr rfl), h]
    · rw [if_neg hs] at h
      cases h

theorem fieldStep_of_no_type (name : String) (i : Nat) (out : List ExtractedRecord)
    (field : Object) (h : GetObject field "type" = none) :
    fieldStep name i out field = ⟨out, none⟩ := by
  unfold fieldStep
  rw [h]

theorem fieldStep_of_type_not_string (name : String) (i : Nat) (out : List ExtractedRecord)
    (field t : Object) (ht : GetObject field "type" = some t)
    (hs : GetString t "type" = none) :
    fieldStep name i out field = ⟨out, some (.expectedTypeStr name i)⟩ := by
  unfold fieldStep
  rw [ht]
  dsimp only
  rw [hs]

theorem fieldStep_of_type_not_array (name : String) (i : Nat) (out : List ExtractedRecord)
    (field t : Object) (s : String) (ht : GetObject field "type" = some t)
    (hs : GetString t "type" = some s) (hne : s ≠ "array") :
    fieldStep name i out field = ⟨out, some (.expectedTypeArray name i)⟩ := by
  unfold fieldStep
  rw [ht]
  dsimp only
  rw [hs]
  dsimp only
  rw [if_pos hne]

theorem fieldStep_of_items_not_object (name : String) (i : Nat) (out : List ExtractedRecord)
    (field t : Object) (ht : GetObject field "type" = some t)
    (hs : GetString t "type" = some "array") (hi : GetObject t "items" = none) :
    fieldStep name i out field = ⟨out, some (.expectedItemsObject name i)⟩ := by
  unfold fieldStep
  rw [ht]
  dsimp only
  rw [hs]
  dsimp only
  rw [if_neg (not_not.mpr rfl), hi]

/-- When the loop runs to its end, the walk of every nested record returned. -/
theorem nested_ok_of_scanFields_ok (name : String) (fs : List Object) :
    ∀ (i : Nat) (out : List ExtractedRecord), (scanFields name i out fs).fatal = none →
      ∀ items ∈ fs.filterMap arrayItems, (writeNestedRecords [] items).fatal = none := by
  induction fs with
  | nil => intro i out _ items hmem; simp at hmem
  | cons field rest ih =>
    intro i out h items hmem
    rw [scanFields_cons] at h
    rcases hstep : fieldStep name i out field with ⟨written, _ | f⟩
    · rw [hstep] at h
      dsimp only at h
      have hok : (fieldStep name i out field).fatal = none := by rw [hstep]
      rcases fieldStep_of_ok name i out field hok with ⟨hnone, _⟩ | ⟨items2, hitems, hwalk⟩
      · rw [List.filterMap_cons, hnone] at hmem
        exact ih (i + 1) written h items hmem
      · rw [List.filterMap_cons, hitems, List.mem_cons] at hmem
        rcases hmem with e | hmem
        · subst e
          rw [hwalk, writeNestedRecords_frame] at hok
          exact hok
        · exact ih (i + 1) written h items hmem
    · rw [hstep] at h
      simp at h

/-! ### The nodes the walk visits -/

/-- A fatal error at a visited node is the end of the whole walk. -/
theorem Reaches.fatal_propagates {out written : List ExtractedRecord} {root node : Object}
    (hreach : Reaches out root written node) (o : List ExtractedRecord) (f : Fatal)
    (h : writeNestedRecords written node = ⟨o, some f⟩) :
    writeNestedRecords out root = ⟨o, some f⟩ := by
  induction hreach with
  | root out record => exact h
  | nested out record name ns pre field post items before written node hname hlen hns hnslen
      hfields hpre hitems _ ih =>
    rw [writeNestedRecords_fields out record name ns _ hname hlen hns hnslen hfields,
      scanFields_append_of_ok name pre (field :: post) 0 _ before hpre]
    apply scanFields_cons_of_fatal
    rw [fieldStep_of_arrayItems name _ before field items hitems]
    exact ih h

/-- A visited node is the root, with nothing more written, or a proper part of
the root, with the entry of the root written after what was there. -/
theorem Reaches.cases_root {out written : List ExtractedRecord} {root node : Object}
    (hreach : Reaches out root written node) :
    (written = out ∧ node = root) ∨
    (sizeOf node < sizeOf root ∧ ∃ more, written = out ++ entryOf root :: more) := by
  induction hreach with
  | root out record => exact Or.inl ⟨rfl, rfl⟩
  | nested out record name ns pre field post items before written node hname hlen hns hnslen
      hfields hpre hitems _ ih =>
    right
    have hsz : sizeOf items < sizeOf record := by
      have h1 := sizeOf_arrayItems hitems
      have h2 := sizeOf_GetObjectArray hfields
      have h3 : sizeOf field < sizeOf (pre ++ field :: post) :=
        List.sizeOf_lt_of_mem (by simp)
      omega
    have hbefore : before
        = (out ++ [⟨name, ns, record⟩]) ++ ((pre.filterMap arrayItems).map preorder).flatten := by
      have := scanFields_emitted name pre 0 (out ++ [⟨name, ns, record⟩]) (by rw [hpre])
      rw [hpre] at this
      exact this
    have hentry : entryOf record = ⟨name, ns, record⟩ := by
      simp [entryOf, hname, hns]
    rcases ih with ⟨e1, e2⟩ | ⟨hlt, more, e⟩
    · subst e2
      refine ⟨hsz, ((pre.filterMap arrayItems).map preorder).flatten, ?_⟩
      rw [e1, hbefore, hentry]
      simp
    · refine ⟨Nat.lt_trans hlt hsz,
        ((pre.filterMap arrayItems).map preorder).flatten ++ entryOf items :: more, ?_⟩
      rw [e, hbefore, hentry]
      simp

/-! ### Walks that return -/

theorem writeNestedRecords_ok_inv (out : List ExtractedRecord) (record : Object)
    (h : (writeNestedRecords out record).fatal = none) :
    ∃ name ns fs, GetString record "name" = some name ∧ name.length ≠ 0 ∧
      GetString record "namespace" = some ns ∧ ns.length ≠ 0 ∧
      GetObjectArray record "fields" = some fs ∧
      writeNestedRecords out record = scanFields name 0 (out ++ [⟨name, ns, record⟩]) fs := by
  rcases hn : GetString record "name" with _ | name
  · rw [writeNestedRecords_lacksName out record
      (fun x hx => by rw [hn] at hx; cases hx)] at h
    simp at h
  by_cases hlen : name.length = 0
  · rw [writeNestedRecords_lacksName out record
      (fun x hx => by rw [hn] at hx; cases hx; exact hlen)] at h
    simp at h
  rcases hns : GetString record "namespace" with _ | ns
  · rw [writeNestedRecords_lacksNamespace out record name hn hlen
      (fun x hx => by rw [hns] at hx; cases hx)] at h
    simp at h
  by_cases hnslen : ns.length = 0
  · rw [writeNestedRecords_lacksNamespace out record name hn hlen
      (fun x hx => by rw [hns] at hx; cases hx; exact hnslen)] at h
    simp at h
  rcases hf : GetObjectArray record "fields" with _ | fs
  · rw [writeNestedRecords_noFields out record name ns hn hlen hns hnslen hf] at h
    simp at h
  · exact ⟨name, ns, fs, rfl, hlen, rfl, hnslen, rfl,
      writeNestedRecords_fields out record name ns fs hn hlen hns hnslen hf⟩

theorem scanFields_of_no_type (name : String) (fs : List Object)
    (h : ∀ f ∈ fs, GetObject f "type" = none) :
    ∀ (i : Nat) (out : List ExtractedRecord), scanFields name i out fs = ⟨out, none⟩ := by
  induction fs with
  | nil => intro i out; exact scanFields_nil name i out
  | cons field rest ih =>
    intro i out
    rw [scanFields_cons_of_ok name i out out field rest
      (fieldStep_of_no_type name i out field (h field (List.mem_cons_self _ _)))]
    exact ih (fun f m => h f (List.mem_cons_of_mem _ m)) (i + 1) out

/-! ### Loops that end the process -/

/-- The walk of a record whose loop passes the fields `pre` and ends the
process at the next field: what is written is the entry of the record and the
walks of the records nested in `pre`. -/
theorem writeNestedRecords_fatal_at_field (out : List ExtractedRecord) (record : Object)
    (name ns : String) (pre : List Object) (field : Object) (post : List Object) (f : Fatal)
    (hname : GetString record "name" = some name) (hlen : name.length ≠ 0)
    (hns : GetString record "namespace" = some ns) (hnslen : ns.length ≠ 0)
    (hfields : GetObjectArray record "fields" = some (pre ++ field :: post))
    (hpre : (scanFields name 0 (out ++ [⟨name, ns, record⟩]) pre).fatal = none)
    (hstep : ∀ o, fieldStep name pre.length o field = ⟨o, some f⟩) :
    writeNestedRecords out record
      = ⟨out ++ ⟨name, ns, record⟩ :: ((pre.filterMap arrayItems).map preorder).flatten,
          some f⟩ := by
  have hem := scanFields_emitted name pre 0 _ hpre
  have hscan : scanFields name 0 (out ++ [⟨name, ns, record⟩]) pre
      = ⟨out ++ ⟨name, ns, record⟩ :: ((pre.filterMap arrayItems).map preorder).flatten,
          none⟩ := by
    rcases hsc : scanFields name 0 (out ++ [⟨name, ns, record⟩]) pre with ⟨w, fo⟩
    rw [hsc] at hem hpre
    dsimp only at hem hpre
    subst hpre
    rw [hsc, hem]
    simp
  rw [writeNestedRecords_fields out record name ns _ hname hlen hns hnslen hfields,
    scanFields_append_of_ok name pre (field :: post) 0 _ _ hscan]
  apply scanFields_cons_of_fatal
  rw [Nat.zero_add]
  exact hstep _

theorem fieldStep_fatal_of_not_array (name : String) (i : Nat) (out : List ExtractedRecord)
    (field t : Object) (ht : GetObject field "type" = some t)
    (hs : GetString t "type" ≠ some "array") :
    (fieldStep name i out field).fatal ≠ none := by
  rcases hst : GetString t "type" with _ | s
  · rw [fieldStep_of_type_not_string name i out field t ht hst]
    simp
  · have hne : s ≠ "array" := fun e => hs (by rw [hst, e])
    rw [fieldStep_of_type_not_array name i out field t s ht hst hne]
    simp

theorem scanFields_fatal_of_mem (name : String) (field : Object) (fs : List Object)
    (hmem : field ∈ fs)
    (hstep : ∀ (i : Nat) (o : List ExtractedRecord), (fieldStep name i o field).fatal ≠ none) :
    ∀ (i : Nat) (out : List ExtractedRecord), (scanFields name i out fs).fatal ≠ none := by
  induction fs with
  | nil => simp at hmem
  | cons g rest ih =>
    intro i out
    rw [scanFields_cons]
    rcases hg : fieldStep name i out g with ⟨written, _ | f⟩
    · dsimp only
      rcases List.mem_cons.mp hmem with e | m
      · subst e
        have := hstep i out
        rw [hg] at this
        exact absurd rfl this
      · exact ih m (i + 1) written
    · simp

theorem GetObject_eq_none_of_not_object (t : Object) (key : String)
    (h : ∀ o, lookupKey t key ≠ some (.object o)) : GetObject t key = none := by
  unfold GetObject
  rcases hl : lookupKey t key with _ | v
  · rfl
  · cases v <;> first | rfl | exact absurd hl (h _)

theorem GetObject_eq_none_of_array (field : Object) (key : String) (members : List Value)
    (h : lookupKey field key = some (.array members)) : GetObject field key = none := by
  unfold GetObject
  rw [h]
  rfl

theorem objectsOf_eq_none_of_mem (elems : List Value) (e : Value) (hmem : e ∈ elems)
    (h : e.asObject = none) : objectsOf elems = none := by
  induction elems with
  | nil => simp at hmem
  | cons v rest ih =>
    rcases List.mem_cons.mp hmem with eq | m
    · subst eq
      simp [objectsOf, h]
    · simp only [objectsOf, ih m]
      cases v.asObject <;> rfl

/-! ## The claims -/

/-- C1: when the walk of a record returns, the sequence written is the
pre-order depth-first walk: the entry of the record, then, in field order, the
sequences written by the walks of the `items` records of its array-typed
fields, each of which returns too; it is the sequence `preorder record` of the
specification. Nothing is removed from it. -/
theorem writeNestedRecords_is_preorder (record : Object)
    (h : (writeNestedRecords [] record).fatal = none) :
    (writeNestedRecords [] record).emitted
        = entryOf record ::
          ((nestedRecords record).map
            (fun items => (writeNestedRecords [] items).emitted)).flatten
      ∧ (∀ items ∈ nestedRecords record, (writeNestedRecords [] items).fatal = none)
      ∧ (writeNestedRecords [] record).emitted = preorder record := by
  have hpre : (writeNestedRecords [] record).emitted = preorder record := by
    simpa using writeNestedRecords_emitted [] record h
  have hnested : ∀ items ∈ nestedRecords record,
      (writeNestedRecords [] items).fatal = none := by
    obtain ⟨name, ns, fs, _, _, _, _, hf, hscan⟩ := writeNestedRecords_ok_inv [] record h
    intro items hmem
    rw [hscan] at h
    simp only [nestedRecords, hf] at hmem
    exact nested_ok_of_scanFields_ok name fs 0 _ h items hmem
  refine ⟨?_, hnested, hpre⟩
  rw [hpre, preorder_eq]
  congr 2
  apply List.map_congr_left
  intro items hmem
  simpa using (writeNestedRecords_emitted [] items (hnested items hmem)).symm

/-- C1 on `Outer` with two array fields of the same `Inner`: the walk returns
and writes `Outer, Inner, Inner`. -/
theorem writeNestedRecords_is_preorder_witness :
    (writeNestedRecords [] outerTwo).fatal = none
      ∧ ((writeNestedRecords [] outerTwo).emitted
          = entryOf outerTwo ::
            ((nestedRecords outerTwo).map
              (fun items => (writeNestedRecords [] items).emitted)).flatten
        ∧ (∀ items ∈ nestedRecords outerTwo, (writeNestedRecords [] items).fatal = none)
        ∧ (writeNestedRecords [] outerTwo).emitted = preorder outerTwo)
      ∧ (writeNestedRecords [] outerTwo).emitted
          = [⟨"Outer", "ns", outerTwo⟩, ⟨"Inner", "ns", inner⟩, ⟨"Inner", "ns", inner⟩]
      ∧ (writeNestedRecords [] outerOne).emitted
          = [⟨"Outer", "ns", outerOne⟩, ⟨"Inner", "ns", inner⟩] := by
  have h2 : writeNestedRecords [] outerTwo
      = ⟨[⟨"Outer", "ns", outerTwo⟩, ⟨"Inner", "ns", inner⟩, ⟨"Inner", "ns", inner⟩], none⟩ := by
    simp +decide [writeNestedRecords, scanFields, outerTwo, inner, arrayField, GetString,
      GetObject, GetObjectArray, lookupKey, Value.asString, Value.asObject, Value.asArray,
      objectsOf]
  have h1 : writeNestedRecords [] outerOne
      = ⟨[⟨"Outer", "ns", outerOne⟩, ⟨"Inner", "ns", inner⟩], none⟩ := by
    simp +decide [writeNestedRecords, scanFields, outerOne, inner, arrayField, GetString,
      GetObject, GetObjectArray, lookupKey, Value.asString, Value.asObject, Value.asArray,
      objectsOf]
  have hok : (writeNestedRecords [] outerTwo).fatal = none := by rw [h2]
  exact ⟨hok, writeNestedRecords_is_preorder outerTwo hok, by rw [h2], by rw [h1]⟩

/-- C2: a record with non-empty name and namespace and a `fields` array of
objects none of which has an object as its `type`: the walk returns and has
written exactly one entry, that of the record: its name, its namespace and
the node. -/
theorem writeNestedRecords_flat (record : Object) (name ns : String) (fs : List Object)
    (hname : GetString record "name" = some name) (hlen : name.length ≠ 0)
    (hns : GetString record "namespace" = some ns) (hnslen : ns.length ≠ 0)
    (hfields : GetObjectArray record "fields" = some fs)
    (hflat : ∀ f ∈ fs, GetObject f "type" = none) :
    writeNestedRecords [] record = ⟨[⟨name, ns, record⟩], none⟩ := by
  rw [writeNestedRecords_fields [] record name ns fs hname hlen hns hnslen hfields,
    scanFields_of_no_type name fs hflat]
  rfl

/-- C2 on a record with two fields of plain types. -/
theorem writeNestedRecords_flat_witness :
    writeNestedRecords [] flatRecord = ⟨[⟨"Flat", "ns", flatRecord⟩], none⟩ :=
  writeNestedRecords_flat flatRecord "Flat" "ns"
    [[("name", .string "a"), ("type", .string "string")],
      [("name", .string "b"), ("type", .string "long")]]
    rfl (by decide) rfl (by decide) rfl
    (by
      intro f hf
      simp only [List.mem_cons, List.mem_singleton, List.not_mem_nil, or_false] at hf
      rcases hf with e | e <;> subst e <;> rfl)

/-- C3 as stated fails on `Outer` with an array field of an `Inner` without
namespace: the walk ends with the fatal error of line 28 at `Inner`, and the
entry of `Outer` is written by then. -/
theorem missing_namespace_after_output :
    writeNestedRecords [] outerNoNamespace
        = ⟨[⟨"Outer", "ns", outerNoNamespace⟩], some (.lacksNamespace innerNoNamespace)⟩
      ∧ (writeNestedRecords [] outerNoNamespace).emitted ≠ [] := by
  have h : writeNestedRecords [] outerNoNamespace
      = ⟨[⟨"Outer", "ns", outerNoNamespace⟩], some (.lacksNamespace innerNoNamespace)⟩ := by
    simp +decide [writeNestedRecords, scanFields, outerNoNamespace, innerNoNamespace,
      arrayField, GetString, GetObject, GetObjectArray, lookupKey, Value.asString,
      Value.asObject, Value.asArray, objectsOf]
  refine ⟨h, ?_⟩
  rw [h]
  simp

/-- C3, amended: a record the walk visits that has a non-empty name and no
non-empty `namespace` ends the walk with the fatal error of line 28,
`MissingIdentity`, and gets no entry; what was written for the records visited
before it stays, so the written sequence is empty exactly when the record is
the root. -/
theorem missing_namespace_fails (root node : Object) (written : List ExtractedRecord)
    (name : String) (hreach : Reaches [] root written node)
    (hname : GetString node "name" = some name) (hlen : name.length ≠ 0)
    (hns : ∀ ns, GetString node "namespace" = some ns → ns.length = 0) :
    writeNestedRecords [] root = ⟨written, some (.lacksNamespace node)⟩
      ∧ (Fatal.lacksNamespace node).kind = .MissingIdentity
      ∧ (written = [] ↔ node = root) := by
  refine ⟨?_, rfl, ?_⟩
  · exact hreach.fatal_propagates written _
      (writeNestedRecords_lacksNamespace written node name hname hlen hns)
  · rcases hreach.cases_root with ⟨e1, e2⟩ | ⟨hlt, more, e⟩
    · exact ⟨fun _ => e2, fun _ => e1⟩
    · constructor
      · intro hw
        rw [hw] at e
        simp at e
      · intro hn
        rw [hn] at hlt
        exact absurd hlt (Nat.lt_irrefl _)

/-- C3, amended, on `Outer` with an array field of an `Inner` without
namespace. -/
theorem missing_namespace_fails_witness :
    writeNestedRecords [] outerNoNamespace
        = ⟨[⟨"Outer", "ns", outerNoNamespace⟩], some (.lacksNamespace innerNoNamespace)⟩
      ∧ (Fatal.lacksNamespace innerNoNamespace).kind = .MissingIdentity
      ∧ (([⟨"Outer", "ns", outerNoNamespace⟩] : List ExtractedRecord) = []
          ↔ innerNoNamespace = outerNoNamespace) :=
  missing_namespace_fails outerNoNamespace innerNoNamespace
    [⟨"Outer", "ns", outerNoNamespace⟩] "Inner"
    (Reaches.nested [] outerNoNamespace "Outer" "ns" []
      [("name", .string "inner"),
        ("type", .object [("type", .string "array"), ("items", .object innerNoNamespace)])]
      [] innerNoNamespace [⟨"Outer", "ns", outerNoNamespace⟩]
      [⟨"Outer", "ns", outerNoNamespace⟩] innerNoNamespace
      rfl (by decide) rfl (by decide) rfl (scanFields_nil _ _ _) rfl
      (Reaches.root _ _))
    rfl (by decide) (fun ns h => by simp [GetString, lookupKey, innerNoNamespace] at h)

/-- C4: a record with non-empty name and namespace, whose loop passes the
fields `pre` and comes to a field whose `type` is an object with a string
`type` other than `"array"`: the walk ends with the fatal error of line 55,
`UnsupportedNestingShape`, at that field; what is written is the entry of the
record and the walks of the records nested in `pre`, nothing of the field,
whatever `items` it carries. -/
theorem type_not_array_fails (out : List ExtractedRecord) (record : Object)
    (name ns : String) (pre : List Object) (field : Object) (post : List Object)
    (t : Object) (s : String)
    (hname : GetString record "name" = some name) (hlen : name.length ≠ 0)
    (hns : GetString record "namespace" = some ns) (hnslen : ns.length ≠ 0)
    (hfields : GetObjectArray record "fields" = some (pre ++ field :: post))
    (hpre : (scanFields name 0 (out ++ [⟨name, ns, record⟩]) pre).fatal = none)
    (ht : GetObject field "type" = some t) (hs : GetString t "type" = some s)
    (hne : s ≠ "array") :
    writeNestedRecords out record
        = ⟨out ++ ⟨name, ns, record⟩ :: ((pre.filterMap arrayItems).map preorder).flatten,
            some (.expectedTypeArray name pre.length)⟩
      ∧ (Fatal.expectedTypeArray name pre.length).kind = .UnsupportedNestingShape :=
  ⟨writeNestedRecords_fatal_at_field out record name ns pre field post _ hname hlen hns hnslen
      hfields hpre (fun o => fieldStep_of_type_not_array name pre.length o field t s ht hs hne),
    rfl⟩

/-- C4 on `Outer` with a field whose type is a map that carries `items`. -/
theorem type_not_array_fails_witness :
    writeNestedRecords [] outerMap
        = ⟨[] ++ ⟨"Outer", "ns", outerMap⟩ ::
              ((([] : List Object).filterMap arrayItems).map preorder).flatten,
            some (.expectedTypeArray "Outer" ([] : List Object).length)⟩
      ∧ (Fatal.expectedTypeArray "Outer" ([] : List Object).length).kind
          = .UnsupportedNestingShape :=
  type_not_array_fails [] outerMap "Outer" "ns" []
    [("name", .string "inner"),
      ("type", .object [("type", .string "map"), ("items", .object inner)])]
    [] [("type", .string "map"), ("items", .object inner)] "map"
    rfl (by decide) rfl (by decide) rfl (by rw [scanFields_nil]) rfl rfl (by decide)

/-- C5 as stated fails on `Outer` with a field whose type is the union of
`null` and the record `Inner`: the `type` is a JSON array, no object, the loop
passes the field, and the walk returns having written `Outer` alone. -/
theorem union_nesting_passes :
    lookupKey [("name", .string "inner"), ("type", .array [.string "null", innerRecordType])]
        "type" = some (.array [.string "null", innerRecordType])
      ∧ writeNestedRecords [] outerUnion = ⟨[⟨"Outer", "ns", outerUnion⟩], none⟩ := by
  refine ⟨rfl, ?_⟩
  simp +decide [writeNestedRecords, scanFields, outerUnion, innerRecordType, GetString,
    GetObject, GetObjectArray, lookupKey, Value.asString, Value.asObject, Value.asArray,
    objectsOf]

/-- C5, amended: a record with a field whose `type` is an object whose own
`type` is not the string `"array"`, as it is for a record given directly as the
type and for a map, never has a walk that returns: the walk ends with a fatal
error. A field whose `type` is a JSON array, a union, is passed by the loop
without a write and without an error, whatever the union holds. -/
theorem non_array_object_type_fails (out : List ExtractedRecord) (record : Object)
    (fs : List Object) (field t : Object)
    (hfields : GetObjectArray record "fields" = some fs) (hmem : field ∈ fs)
    (ht : GetObject field "type" = some t) (hs : GetString t "type" ≠ some "array") :
    (writeNestedRecords out record).fatal ≠ none
      ∧ ∀ (name : String) (i : Nat) (o : List ExtractedRecord) (unionField : Object)
          (members : List Value), lookupKey unionField "type" = some (.array members) →
          fieldStep name i o unionField = ⟨o, none⟩ := by
  constructor
  · intro hok
    obtain ⟨name, ns, fs2, _, _, _, _, hf, hscan⟩ := writeNestedRecords_ok_inv out record hok
    rw [hfields] at hf
    cases hf
    rw [hscan] at hok
    exact scanFields_fatal_of_mem name field fs hmem
      (fun i o => fieldStep_fatal_of_not_array name i o field t ht hs) 0 _ hok
  · intro name i o unionField members hu
    exact fieldStep_of_no_type name i o unionField
      (GetObject_eq_none_of_array unionField "type" members hu)

/-- C5, amended, on `Outer` with a field whose type is the record `Inner`
itself. -/
theorem non_array_object_type_fails_witness :
    (writeNestedRecords [] outerDirect).fatal ≠ none
      ∧ fieldStep "Outer" 0 []
          [("name", .string "inner"), ("type", .array [.string "null", innerRecordType])]
        = ⟨[], none⟩ :=
  have h := non_array_object_type_fails [] outerDirect
    [[("name", .string "inner"), ("type", innerRecordType)]]
    [("name", .string "inner"), ("type", innerRecordType)]
    [("type", .string "record"), ("name", .string "Inner"), ("namespace", .string "ns"),
      ("fields", .array [])]
    rfl (List.mem_singleton.mpr rfl) rfl (by decide)
  ⟨h.1, h.2 "Outer" 0 [] _ [.string "null", innerRecordType] rfl⟩

/-- C6: a record with non-empty name and namespace, whose loop passes the
fields `pre` and comes to a field whose `type` is an object with type
`"array"` whose `items` is absent or is no object: the walk ends with the
fatal error of line 59, `MalformedArrayItems`, at that field. -/
theorem items_not_object_fails (out : List ExtractedRecord) (record : Object)
    (name ns : String) (pre : List Object) (field : Object) (post : List Object) (t : Object)
    (hname : GetString record "name" = some name) (hlen : name.length ≠ 0)
    (hns : GetString record "namespace" = some ns) (hnslen : ns.length ≠ 0)
    (hfields : GetObjectArray record "fields" = some (pre ++ field :: post))
    (hpre : (scanFields name 0 (out ++ [⟨name, ns, record⟩]) pre).fatal = none)
    (ht : GetObject field "type" = some t) (hs : GetString t "type" = some "array")
    (hitems : ∀ o, lookupKey t "items" ≠ some (.object o)) :
    writeNestedRecords out record
        = ⟨out ++ ⟨name, ns, record⟩ :: ((pre.filterMap arrayItems).map preorder).flatten,
            some (.expectedItemsObject name pre.length)⟩
      ∧ (Fatal.expectedItemsObject name pre.length).kind = .MalformedArrayItems :=
  ⟨writeNestedRecords_fatal_at_field out record name ns pre field post _ hname hlen hns hnslen
      hfields hpre (fun o => fieldStep_of_items_not_object name pre.length o field t ht hs
        (GetObject_eq_none_of_not_object t "items" hitems)),
    rfl⟩

/-- C6 on `Outer` with an array field whose `items` is the string `"string"`. -/
theorem items_not_object_fails_witness :
    writeNestedRecords [] outerStrings
        = ⟨[] ++ ⟨"Outer", "ns", outerStrings⟩ ::
              ((([] : List Object).filterMap arrayItems).map preorder).flatten,
            some (.expectedItemsObject "Outer" ([] : List Object).length)⟩
      ∧ (Fatal.expectedItemsObject "Outer" ([] : List Object).length).kind
          = .MalformedArrayItems :=
  items_not_object_fails [] outerStrings "Outer" "ns" []
    [("name", .string "tags"),
      ("type", .object [("type", .string "array"), ("items", .string "string")])]
    [] [("type", .string "array"), ("items", .string "string")]
    rfl (by decide) rfl (by decide) rfl (by rw [scanFields_nil]) rfl rfl
    (fun o h => by simp [lookupKey] at h)

/-- C10: a record with non-empty name and namespace whose `fields` is absent,
is no array, or is an array with an element that is no object: the walk ends
with the fatal error of line 42, which is none of `MissingIdentity`,
`UnsupportedNestingShape` and `MalformedArrayItems`, and the entry of the
record is written by then. With an empty `fields` array the walk returns,
the entry of the record written. -/
theorem fields_not_objects_fails (out : List ExtractedRecord) (record : Object)
    (name ns : String)
    (hname : GetString record "name" = some name) (hlen : name.length ≠ 0)
    (hns : GetString record "namespace" = some ns) (hnslen : ns.length ≠ 0) :
    ((lookupKey record "fields" = none
        ∨ (∃ v, lookupKey record "fields" = some v ∧ v.asArray = none)
        ∨ (∃ elems e, lookupKey record "fields" = some (.array elems) ∧ e ∈ elems
            ∧ e.asObject = none)) →
      writeNestedRecords out record
          = ⟨out ++ [⟨name, ns, record⟩], some (.expectedFields name)⟩
        ∧ (Fatal.expectedFields name).kind = .Other)
    ∧ (lookupKey record "fields" = some (.array []) →
        writeNestedRecords out record = ⟨out ++ [⟨name, ns, record⟩], none⟩) := by
  constructor
  · intro h
    refine ⟨?_, rfl⟩
    apply writeNestedRecords_noFields out record name ns hname hlen hns hnslen
    unfold GetObjectArray
    rcases h with h | ⟨v, h, hv⟩ | ⟨elems, e, h, hmem, he⟩
    · rw [h]
    · rw [h]
      dsimp only
      rw [hv]
    · rw [h]
      exact objectsOf_eq_none_of_mem elems e hmem he
  · intro h
    have hf : GetObjectArray record "fields" = some [] := by
      unfold GetObjectArray
      rw [h]
      rfl
    rw [writeNestedRecords_fields out record name ns [] hname hlen hns hnslen hf,
      scanFields_nil]

/-- C10 on `Outer` without `fields`, and on `Inner` with its empty `fields`. -/
theorem fields_not_objects_fails_witness :
    (writeNestedRecords [] outerNoFields
          = ⟨[] ++ [⟨"Outer", "ns", outerNoFields⟩], some (.expectedFields "Outer")⟩
        ∧ (Fatal.expectedFields "Outer").kind = .Other)
      ∧ writeNestedRecords [] inner = ⟨[] ++ [⟨"Inner", "ns", inner⟩], none⟩ :=
  ⟨(fields_not_objects_fails [] outerNoFields "Outer" "ns"
      rfl (by decide) rfl (by decide)).1 (Or.inl rfl),
    (fields_not_objects_fails [] inner "Inner" "ns" rfl (by decide) rfl (by decide)).2 rfl⟩

/-- C7 as stated fails on the text of a brace, a newline and a brace: the
second pruning does not give back what the first one gave. -/
theorem pruneDoc_not_idempotent :
    pruneDoc (pruneDoc [123, 10, 125]) ≠ pruneDoc [123, 10, 125] := by
  decide

/-- C7, amended: pruning a second time keeps every byte of the first pruning,
removes no row, and adds exactly one newline at the end. -/
theorem pruneDoc_twice (data : List Byte) :
    pruneDoc (pruneDoc data) = pruneDoc data ++ [newline] := by
  have hkept := keptRows_spec data
  have hfilter :
      (Split (pruneDoc data)).filter (fun row => !Contains row docMarker)
        = (Split data).filter (fun row => !Contains row docMarker) ++ [[]] := by
    rw [Split_pruneDoc, List.filter_eq_self]
    intro row hrow
    rcases List.mem_append.mp hrow with m | m
    · simp [(hkept row m).2]
    · rw [List.mem_singleton] at m
      subst m
      decide
  rw [pruneDoc_eq (pruneDoc data), hfilter, pruneDoc_eq data]
  simp

/-- C8 as stated fails on the one-byte text `a`: its only row has no marker,
and the pruning gives `a` followed by a newline. -/
theorem pruneDoc_changes_plain_text :
    (∀ row ∈ Split [97], Contains row docMarker = false)
      ∧ pruneDoc [97] = [97, 10] ∧ pruneDoc [97] ≠ [97] := by
  decide

/-- C8, amended: when no row of the input contains the marker, the pruning
gives the input followed by one more newline: every row is written as it is,
and the piece after the last newline of the input gets a newline too. -/
theorem pruneDoc_of_no_doc (data : List Byte)
    (h : ∀ row ∈ Split data, Contains row docMarker = false) :
    pruneDoc data = data ++ [newline] := by
  have hfilter : (Split data).filter (fun row => !Contains row docMarker) = Split data := by
    rw [List.filter_eq_self]
    intro row hrow
    simp [h row hrow]
  rw [pruneDoc_eq, hfilter, join_Split]

/-- C8, amended, on the text `a`, a newline, `b`. -/
theorem pruneDoc_of_no_doc_witness :
    pruneDoc [97, 10, 98] = [97, 10, 98] ++ [newline] :=
  pruneDoc_of_no_doc [97, 10, 98] (by decide)

/-- C9: the rows of the pruned text that a newline ends are the rows of the
input without the marker, unchanged and in their order, and the pruned text as
a whole does not contain the marker. -/
theorem pruneDoc_lines (data : List Byte) :
    terminatedLines (pruneDoc data)
        = (Split data).filter (fun row => !Contains row docMarker)
      ∧ Contains (pruneDoc data) docMarker = false := by
  constructor
  · rw [terminatedLines, Split_pruneDoc, List.dropLast_concat]
  · rw [pruneDoc_eq]
    exact Contains_join_rows docMarker _ newline_not_mem_docMarker
      (fun row hrow => (keptRows_spec data row hrow).2) (by decide)

end SchemaGenerator
